import Mathlib

/-!
Shallow embedding of the USPTO bulk file processor (`src/index.ts`) and
verification of the specification's claims about it.

Text is modelled as `List Char`.  Every external effect (HTTP fetch, file
system, database connection) is passed in explicitly: fetches become
functions returning `Option` payloads (`none` = network failure), directory
contents become association lists, and thrown JavaScript exceptions become
`none`/failure results.
-/

/-- Text (JavaScript strings) modelled as lists of characters. -/
abbrev Str : Type := List Char

/-- JavaScript regular-expression `\s` character class (whitespace). -/
def isJsSpace (c : Char) : Bool :=
  c = ' ' || c = '\t' || c = '\n' || c.toNat = 11 || c.toNat = 12 || c = '\r' ||
  c.toNat = 160 || c.toNat = 5760 || (8192 ≤ c.toNat && c.toNat ≤ 8202) ||
  c.toNat = 8232 || c.toNat = 8233 || c.toNat = 8239 || c.toNat = 8287 ||
  c.toNat = 12288 || c.toNat = 65279

/-- Case-insensitive character comparison (the `i` regex flag). -/
def ciEq (a b : Char) : Bool := a.toLower == b.toLower

/-- The pattern `pat` matches case-insensitively at the start of `cs`. -/
def ciStartsWith : Str → Str → Bool
  | [], _ => true
  | _ :: _, [] => false
  | p :: ps, c :: cs => ciEq p c && ciStartsWith ps cs

/-- Literal part of the document-open pattern
`[<]us-patent-application\s` of `processUsptoXmlFile` (22 characters,
followed by one `\s` character). -/
def openLit : Str := "<us-patent-application".toList

/-- Document-close literal `[<][/]us-patent-application[>]` (24 characters). -/
def closeLit : Str := "</us-patent-application>".toList

/-- The open pattern `[<]us-patent-application\s` matches at the start of `cs`. -/
def isOpenAt (cs : Str) : Bool :=
  ciStartsWith openLit cs &&
    (match cs.drop 22 with
     | c :: _ => isJsSpace c
     | [] => false)

/-- The close pattern matches at the start of `cs`. -/
def isCloseAt (cs : Str) : Bool := ciStartsWith closeLit cs

/-- Index of the first suffix of `cs` satisfying `p` (regex scan for the
leftmost match position). -/
def firstIdx (p : Str → Bool) : Str → Option Nat
  | [] => if p [] then some 0 else none
  | c :: t => if p (c :: t) then some 0 else (firstIdx p t).map (· + 1)

/-- Global scan of `xmlData.match(patentXmlSectionRegularExpression)`:
leftmost match start, lazy (`.*?`) extension to the first close literal,
then continue after the match.  `fuel` bounds the recursion. -/
def matchSectionsAux : Nat → Str → List Str
  | 0, _ => []
  | fuel + 1, cs =>
    match firstIdx isOpenAt cs with
    | none => []
    | some i =>
      let cs1 := cs.drop i
      match firstIdx isCloseAt (cs1.drop 23) with
      | none => []
      | some j =>
        let mlen := 23 + j + 24
        cs1.take mlen :: matchSectionsAux fuel (cs1.drop mlen)

/-- All matches of the section regular expression, in source order. -/
def matchSections (cs : Str) : List Str := matchSectionsAux (cs.length + 1) cs

/-- JavaScript `String.match` with the `g` flag: `null` (here `none`) when
there is no match, otherwise the list of matches. -/
def jsMatchSections (cs : Str) : Option (List Str) :=
  match matchSections cs with
  | [] => none
  | l => some l

/-- A well-formed document segment: it starts with the open pattern, ends
with the close literal, and contains the close literal nowhere else. -/
def WfSegment (s : Str) : Prop :=
  isOpenAt s = true ∧ 47 ≤ s.length ∧ isCloseAt (s.drop (s.length - 24)) = true ∧
  ∀ k < s.length, isCloseAt (s.drop k) = true → k = s.length - 24

instance (s : Str) : Decidable (WfSegment s) := by
  unfold WfSegment; infer_instance


/-!
JSON serialization (`JSON.stringify`) of the nested record fields, and a
JSON-subset reader (`JSON.parse` restricted to the shapes produced here),
used for the round-trip claim.
-/

/-- Lowercase hexadecimal digit, as emitted by `JSON.stringify` in `\u`
escapes; computed from the code point (48 = `0`, 97 = `a`). -/
def hexDig (n : Nat) : Char :=
  if n < 10 then Char.ofNat (48 + n) else Char.ofNat (97 + (min n 15 - 10))

/-- Numeric value of a hexadecimal digit character, read off its code
point (48–57 = digits, 97–102 = lowercase, 65–70 = uppercase). -/
def hexVal (c : Char) : Option Nat :=
  if 48 ≤ c.toNat ∧ c.toNat ≤ 57 then some (c.toNat - 48)
  else if 97 ≤ c.toNat ∧ c.toNat ≤ 102 then some (c.toNat - 87)
  else if 65 ≤ c.toNat ∧ c.toNat ≤ 70 then some (c.toNat - 55)
  else none

/-- `JSON.stringify` escaping of one character inside a string literal. -/
def escChar (c : Char) : Str :=
  if c = '"' then ['\\', '"']
  else if c = '\\' then ['\\', '\\']
  else if c.toNat < 32 then
    if c.toNat = 8 then ['\\', 'b']
    else if c.toNat = 9 then ['\\', 't']
    else if c.toNat = 10 then ['\\', 'n']
    else if c.toNat = 12 then ['\\', 'f']
    else if c.toNat = 13 then ['\\', 'r']
    else ['\\', 'u', '0', '0', hexDig (c.toNat / 16), hexDig (c.toNat % 16)]
  else [c]

/-- Escape every character of a string body. -/
def escStr : Str → Str
  | [] => []
  | c :: cs => escChar c ++ escStr cs

/-- `JSON.stringify` of a string value. -/
def serJStr (s : Str) : Str := '"' :: (escStr s ++ ['"'])

/-- Prepend a character to the parsed part of a parser result. -/
def consFst (c : Char) (p : Str × Str) : Str × Str := (c :: p.1, p.2)

/-- Read a JSON string body up to the closing quote, undoing escapes.
Returns the decoded body and the remaining input. -/
def parseJStrBody : Str → Option (Str × Str)
  | [] => none
  | c :: rest =>
    if c = '"' then some ([], rest)
    else if c = '\\' then
      match rest with
      | [] => none
      | e :: r2 =>
        if e = '"' then (parseJStrBody r2).map (consFst '"')
        else if e = '\\' then (parseJStrBody r2).map (consFst '\\')
        else if e = '/' then (parseJStrBody r2).map (consFst '/')
        else if e = 'b' then (parseJStrBody r2).map (consFst (Char.ofNat 8))
        else if e = 't' then (parseJStrBody r2).map (consFst (Char.ofNat 9))
        else if e = 'n' then (parseJStrBody r2).map (consFst (Char.ofNat 10))
        else if e = 'f' then (parseJStrBody r2).map (consFst (Char.ofNat 12))
        else if e = 'r' then (parseJStrBody r2).map (consFst (Char.ofNat 13))
        else if e = 'u' then
          match r2 with
          | h1 :: h2 :: h3 :: h4 :: r6 =>
            match hexVal h1, hexVal h2, hexVal h3, hexVal h4 with
            | some a, some b, some c2, some d =>
              (parseJStrBody r6).map (consFst (Char.ofNat (16 * (16 * (16 * a + b) + c2) + d)))
            | _, _, _, _ => none
          | _ => none
        else none
    else (parseJStrBody rest).map (consFst c)

/-- Read a JSON string value (opening quote, body, closing quote). -/
def parseJStr : Str → Option (Str × Str)
  | [] => none
  | c :: rest => if c = '"' then parseJStrBody rest else none

/-- Comma-separated concatenation of already-serialized items. -/
def commaSep : List Str → Str
  | [] => []
  | [x] => x
  | x :: y :: xs => x ++ ',' :: commaSep (y :: xs)

/-- `JSON.stringify` of an array given a serializer for its elements. -/
def serArr (ser : α → Str) (l : List α) : Str :=
  '[' :: (commaSep (l.map ser) ++ [']'])

/-- Read the elements of a non-empty JSON array after the opening bracket. -/
def parseElems (pe : Str → Option (α × Str)) : Nat → Str → Option (List α × Str)
  | 0, _ => none
  | fuel + 1, cs =>
    match pe cs with
    | none => none
    | some (a, rest) =>
      match rest with
      | [] => none
      | c :: r2 =>
        if c = ',' then (parseElems pe fuel r2).map (fun p => (a :: p.1, p.2))
        else if c = ']' then some ([a], r2)
        else none

/-- Read a JSON array given a reader for its elements. -/
def parseArr (pe : Str → Option (α × Str)) : Str → Option (List α × Str)
  | [] => none
  | c :: rest =>
    if c = '[' then
      match rest with
      | [] => none
      | c2 :: r2 =>
        if c2 = ']' then some ([], r2)
        else parseElems pe ((c2 :: r2).length + 1) (c2 :: r2)
    else none

/-- Strip an expected literal from the front of the input. -/
def stripLit : Str → Str → Option Str
  | [], cs => some cs
  | _ :: _, [] => none
  | p :: ps, c :: cs => if p = c then stripLit ps cs else none

/-- One entry of `patentClaims`: the generic claim text and the nested
individual claim texts, in document order. -/
structure PatentClaim where
  genericClaim : Str
  individualClaims : List Str
deriving DecidableEq

/-- `JSON.stringify` of a string array. -/
def serStrArr (l : List Str) : Str := serArr serJStr l

/-- Object key prelude emitted by `JSON.stringify` for `genericClaim`. -/
def keyGeneric : Str := "\x7b\"genericClaim\":".toList

/-- Object key prelude emitted by `JSON.stringify` for `individualClaims`. -/
def keyIndividual : Str := ",\"individualClaims\":".toList

/-- `JSON.stringify` of one claim object (keys in insertion order). -/
def serClaim (c : PatentClaim) : Str :=
  keyGeneric ++ serJStr c.genericClaim ++ keyIndividual ++
    serStrArr c.individualClaims ++ "\x7d".toList

/-- `JSON.stringify` of the claim array. -/
def serClaimArr (l : List PatentClaim) : Str := serArr serClaim l

/-- Read a string array. -/
def parseStrArr : Str → Option (List Str × Str) := parseArr parseJStr

/-- Read one claim object of the canonical serialized shape. -/
def parseClaim (cs : Str) : Option (PatentClaim × Str) :=
  match stripLit keyGeneric cs with
  | none => none
  | some r1 =>
    match parseJStr r1 with
    | none => none
    | some (g, r2) =>
      match stripLit keyIndividual r2 with
      | none => none
      | some r3 =>
        match parseStrArr r3 with
        | none => none
        | some (ind, r4) =>
          match stripLit "\x7d".toList r4 with
          | none => none
          | some r5 => some (⟨g, ind⟩, r5)

/-- Read the claim array. -/
def parseClaimArr : Str → Option (List PatentClaim × Str) := parseArr parseClaim


/-!
Data model: the shape of the `xml2js` parse result that
`processUsptoXmlFile` reads (child elements are wrapped in arrays, element
text lives under `_`, attributes under `$`), the `UsptoPatentData`
record, and its `UsptoPatentSchemaData` flattened form.
-/

/-- An abstract `<p>` paragraph node (`abstract[0]['p']` entries). -/
structure PNode where
  text : Str
deriving DecidableEq

/-- The `abstract` element with its paragraph children. -/
structure AbstractNode where
  p : List PNode
deriving DecidableEq

/-- One `claim-text` element: its direct text (`_`) and its nested
`claim-text` children. -/
structure ClaimTextNode where
  text : Str
  claimText : List Str
deriving DecidableEq

/-- One `claim` element with its `claim-text` children (code reads `[0]`). -/
structure ClaimNode where
  claimText : List ClaimTextNode
deriving DecidableEq

/-- The `claims` element with its `claim` children. -/
structure ClaimsNode where
  claim : List ClaimNode
deriving DecidableEq

/-- A `heading` element of the description. -/
structure HeadingNode where
  text : Str
deriving DecidableEq

/-- The `description` element with its `heading` children. -/
structure DescriptionNode where
  heading : List HeadingNode
deriving DecidableEq

/-- The `invention-title` element: text (`_`) and `id` attribute. -/
structure InventionTitleNode where
  text : Str
  id : Str
deriving DecidableEq

/-- A `document-id` element with its `doc-number` children. -/
structure DocumentIdNode where
  docNumber : List Str
deriving DecidableEq

/-- A `publication-reference` element with its `document-id` children. -/
structure PublicationReferenceNode where
  documentId : List DocumentIdNode
deriving DecidableEq

/-- The `us-bibliographic-data-application` element. -/
structure BiblioNode where
  inventionTitle : List InventionTitleNode
  publicationReference : List PublicationReferenceNode
deriving DecidableEq

/-- The parsed `us-patent-application` root: its attribute set (`$`) and the
child element arrays that the projection reads. -/
structure ParsedRoot where
  lang : Str
  country : Str
  dateProduced : Str
  datePubl : Str
  dtdVersion : Str
  file : Str
  status : Str
  abstract : List AbstractNode
  claims : List ClaimsNode
  description : List DescriptionNode
  biblio : List BiblioNode
deriving DecidableEq

/-- The `UsptoPatentData` interface (nested form). -/
structure UsptoPatentData where
  language : Str
  country : Str
  dateProduced : Str
  datePublished : Str
  dtdVersion : Str
  xmlFile : Str
  patentStatus : Str
  patentAbstract : List Str
  patentClaims : List PatentClaim
  patentHeadings : List Str
  inventionTitle : Str
  inventionId : Str
  documentNumber : Str
deriving DecidableEq

/-- The `UsptoPatentSchemaData` interface: the three nested fields are
flattened to JSON text blobs. -/
structure UsptoPatentSchemaData where
  language : Str
  country : Str
  dateProduced : Str
  datePublished : Str
  dtdVersion : Str
  xmlFile : Str
  patentStatus : Str
  patentAbstract : Str
  patentClaims : Str
  patentHeadings : Str
  inventionTitle : Str
  inventionId : Str
  documentNumber : Str
deriving DecidableEq

/-- The first map over `claims[0]['claim']`: take `claim['claim-text'][0]`
of every claim; reading a property of `undefined` in the second map makes
the whole call throw, modelled by `none`. -/
def claimHeads : List ClaimNode → Option (List ClaimTextNode)
  | [] => some []
  | c :: rest =>
    match c.claimText.head? with
    | none => none
    | some ct => (claimHeads rest).map (ct :: ·)

/-- Projection of one parsed document into `UsptoPatentData`
(the object literal of `processUsptoXmlFile`); `none` models the thrown
`TypeError` when a required nesting level is absent. -/
def projectPatent (root : ParsedRoot) : Option UsptoPatentData :=
  match root.abstract.head? with
  | none => none
  | some ab =>
    match root.claims.head? with
    | none => none
    | some cw =>
      match claimHeads cw.claim with
      | none => none
      | some cts =>
        match root.description.head? with
        | none => none
        | some de =>
          match root.biblio.head? with
          | none => none
          | some bib =>
            match bib.inventionTitle.head? with
            | none => none
            | some it =>
              match bib.publicationReference.head? with
              | none => none
              | some pr =>
                match pr.documentId.head? with
                | none => none
                | some di =>
                  match di.docNumber.head? with
                  | none => none
                  | some dn => some {
                      language := root.lang
                      country := root.country
                      dateProduced := root.dateProduced
                      datePublished := root.datePubl
                      dtdVersion := root.dtdVersion
                      xmlFile := root.file
                      patentStatus := root.status
                      patentAbstract := ab.p.map PNode.text
                      patentClaims := cts.map (fun ct => ⟨ct.text, ct.claimText⟩)
                      patentHeadings := de.heading.map HeadingNode.text
                      inventionTitle := it.text
                      inventionId := it.id
                      documentNumber := dn }

/-- The `UsptoPatentSchemaData` built from a `UsptoPatentData` by
`JSON.stringify`-ing the three nested fields. -/
def toSchemaData (d : UsptoPatentData) : UsptoPatentSchemaData :=
  { language := d.language
    country := d.country
    dateProduced := d.dateProduced
    datePublished := d.datePublished
    dtdVersion := d.dtdVersion
    xmlFile := d.xmlFile
    patentStatus := d.patentStatus
    patentAbstract := serStrArr d.patentAbstract
    patentClaims := serClaimArr d.patentClaims
    patentHeadings := serStrArr d.patentHeadings
    inventionTitle := d.inventionTitle
    inventionId := d.inventionId
    documentNumber := d.documentNumber }

/-- The per-section loop body of `processUsptoXmlFile`: parse and project
each section in order, aborting on the first failure. -/
def processSections (parse : Str → ParsedRoot) : List Str → Option (List UsptoPatentSchemaData)
  | [] => some []
  | s :: rest =>
    match projectPatent (parse s) with
    | none => none
    | some d => (processSections parse rest).map (toSchemaData d :: ·)

/-- `processUsptoXmlFile`: match out all document sections of the file text
(`null` when there are none, which makes the `for…of` throw, modelled by
`none`), then parse and project each section in order.  The `xml2js`
string-to-tree step is the `parse` parameter. -/
def processUsptoXmlFile (parse : Str → ParsedRoot) (xmlData : Str) :
    Option (List UsptoPatentSchemaData) :=
  match jsMatchSections xmlData with
  | none => none
  | some sections => processSections parse sections

/-- Parse and project every section (the successful-run record list). -/
def projectAll (parse : Str → ParsedRoot) : List Str → Option (List UsptoPatentData)
  | [] => some []
  | s :: rest =>
    match projectPatent (parse s) with
    | none => none
    | some d => (projectAll parse rest).map (d :: ·)


/-!
Listing discovery (`fetchUsptoZipFileInfos`): per-year page fetches in
ascending year order, link extraction with the zip-link regular expression,
and truncation by `fileLimit`.
-/

/-- Zip file reference: name and URL. -/
structure UsptoZipFileInfo where
  name : Str
  url : Str
deriving DecidableEq

/-- A fetched index page: its request URL (`config.url`) and body. -/
structure PageResponse where
  url : Str
  data : Str
deriving DecidableEq

/-- Default `fileLimit` argument of `fetchUsptoZipFileInfos`. -/
def fileLimitDefault : Nat := 1

/-- Default `startYear` argument of `fetchUsptoZipFileInfos`. -/
def startYearDefault : Nat := 2005

/-- The per-year bulk data URL built in the fetch loop. -/
def yearUrl (year : Nat) : Str :=
  "https://bulkdata.uspto.gov/data/patent/application/redbook/fulltext/".toList ++
    (toString year).toList ++ ['/']

/-- One page request per year, counting up from `s` for `n` years. -/
def fetchYearsFrom (fetchHtml : Nat → Str) : Nat → Nat → List PageResponse
  | _, 0 => []
  | s, n + 1 => ⟨yearUrl s, fetchHtml s⟩ :: fetchYearsFrom fetchHtml (s + 1) n

/-- The sequential year loop: one page request per year from `s` to `e`
inclusive (`e + 1 - s` iterations), responses collected in ascending year
order. -/
def fetchYearLoop (fetchHtml : Nat → Str) (s e : Nat) : List PageResponse :=
  fetchYearsFrom fetchHtml s (e + 1 - s)

/-- The years visited by the loop, in ascending order. -/
def yearRange (s e : Nat) : List Nat := (List.range (e + 1 - s)).map (s + ·)

/-- Is this character an ASCII letter (`[a-zA-Z]`)? -/
def isAsciiLetter (c : Char) : Bool :=
  ('a' ≤ c && c ≤ 'z') || ('A' ≤ c && c ≤ 'Z')

/-- Is this character an ASCII digit (`[0-9]`)? -/
def isAsciiDigit (c : Char) : Bool := '0' ≤ c && c ≤ '9'

/-- Try to match the link pattern
`a\shref[=]["][a-zA-Z]{1,5}[0-9]{1,11}[.]zip["][>]` at the start of `cs`
(the letter and digit classes are disjoint from their successors, so the
greedy quantifiers never need to backtrack).  Returns the full match text
and the rest of the input. -/
def linkMatchAt (cs : Str) : Option (Str × Str) :=
  match cs with
  | a :: w :: r0 =>
    if ciEq a 'a' && isJsSpace w then
      match stripLitCi "href=\"".toList r0 with
      | none => none
      | some r1 =>
        let letters := r1.takeWhile isAsciiLetter
        let r2 := r1.dropWhile isAsciiLetter
        if 1 ≤ letters.length && letters.length ≤ 5 then
          let digits := r2.takeWhile isAsciiDigit
          let r3 := r2.dropWhile isAsciiDigit
          if 1 ≤ digits.length && digits.length ≤ 11 then
            match stripLitCi ".zip\">".toList r3 with
            | none => none
            | some r4 =>
              some (a :: w :: "href=\"".toList ++ letters ++ digits ++ ".zip\">".toList, r4)
          else none
        else none
    else none
  | _ => none
where
  /-- Strip an expected literal case-insensitively. -/
  stripLitCi : Str → Str → Option Str
    | [], cs => some cs
    | _ :: _, [] => none
    | p :: ps, c :: cs => if ciEq p c then stripLitCi ps cs else none

/-- Global scan for all link-pattern matches, left to right. -/
def linkScanAux : Nat → Str → List Str
  | 0, _ => []
  | _ + 1, [] => []
  | fuel + 1, c :: rest =>
    match linkMatchAt (c :: rest) with
    | some (m, r) => m :: linkScanAux fuel r
    | none => linkScanAux fuel rest

/-- All matches of the zip-link regular expression in a page body. -/
def linkMatches (cs : Str) : List Str := linkScanAux cs.length cs

/-- `htmlPageContents.match(linkRegularExpression)`: `null` (`none`) when
there is no match. -/
def jsMatchLinks (cs : Str) : Option (List Str) :=
  match linkMatches cs with
  | [] => none
  | l => some l

/-- JavaScript `String.split` on a single separator character. -/
def jsSplit (sep : Char) : Str → List Str
  | [] => [[]]
  | c :: rest =>
    if c = sep then [] :: jsSplit sep rest
    else match jsSplit sep rest with
      | [] => [[c]]
      | s :: ss => (c :: s) :: ss

/-- `linkText.split('"')[1].split('"')[0]`: the file name between the
quotes of a matched link. -/
def extractName (m : Str) : Str :=
  (jsSplit '"' ((jsSplit '"' m).getD 1 [])).getD 0 []

/-- The references contributed by one page, in match order. -/
def pageInfos (p : PageResponse) : List UsptoZipFileInfo :=
  (linkMatches p.data).map (fun m => ⟨extractName m, p.url ++ extractName m⟩)

/-- The `forEach` accumulation over the fetched pages: push the references
of each page in order; a page with zero matches makes the whole call throw
(`match` returned `null`). -/
def collectInfos : List PageResponse → Option (List UsptoZipFileInfo)
  | [] => some []
  | p :: rest =>
    match jsMatchLinks p.data with
    | none => none
    | some ms =>
      (collectInfos rest).map
        (fun tail => ms.map (fun m => ⟨extractName m, p.url ++ extractName m⟩) ++ tail)

/-- `fetchUsptoZipFileInfos`: fetch one page per year in ascending order,
extract all zip links, and truncate the accumulated list with
`slice(0, fileLimit)`. -/
def fetchUsptoZipFileInfos (fetchHtml : Nat → Str) (fileLimit s e : Nat) :
    Option (List UsptoZipFileInfo) :=
  (collectInfos (fetchYearLoop fetchHtml s e)).map (List.take fileLimit)


/-!
Archive cache synchronizer (`synchronizeUsptoZipFiles`).
-/

/-- Result of a `synchronizeUsptoZipFiles` run: whether it completed,
the final cache directory contents, and the URLs fetched, in order. -/
structure SyncZipResult (β : Type) where
  ok : Bool
  dir : List (Str × β)
  fetched : List Str
deriving DecidableEq

/-- The per-reference loop: skip names present in the listing taken at the
start of the call; otherwise fetch (`none` = network failure, aborting the
whole call) and write the payload into the cache directory. -/
def syncZipLoop (fetch : Str → Option β) (listing : List Str) :
    List UsptoZipFileInfo → List (Str × β) → List Str → SyncZipResult β
  | [], dir, log => ⟨true, dir, log⟩
  | info :: rest, dir, log =>
    if info.name ∈ listing then syncZipLoop fetch listing rest dir log
    else
      match fetch info.url with
      | none => ⟨false, dir, log ++ [info.url]⟩
      | some payload =>
        syncZipLoop fetch listing rest (dir ++ [(info.name, payload)]) (log ++ [info.url])

/-- `synchronizeUsptoZipFiles`: list the cache directory once, then walk
the references in input order. -/
def synchronizeUsptoZipFiles (fetch : Str → Option β) (infos : List UsptoZipFileInfo)
    (dir0 : List (Str × β)) : SyncZipResult β :=
  syncZipLoop fetch (dir0.map Prod.fst) infos dir0 []


/-!
Archive extractor (`processCachedUsptoZipFiles`).
-/

/-- A zip archive: its member files (path and content). -/
abbrev ZipArchive : Type := List (Str × Str)

/-- `admZip.extractAllTo(outDir)` with its default `overwrite = false`:
every member is written unless a file of that name already exists. -/
def extractAllTo (archive : ZipArchive) (outDir : List (Str × Str)) : List (Str × Str) :=
  archive.foldl (fun d m => if m.1 ∈ d.map Prod.fst then d else d ++ [m]) outDir

/-- One iteration of the extraction loop: unzip the archive into the
output directory and log the archive's name. -/
def extractStep (acc : List (Str × Str) × List Str) (z : Str × ZipArchive) :
    List (Str × Str) × List Str :=
  (extractAllTo z.2 acc.1, acc.2 ++ [z.1])

/-- `processCachedUsptoZipFiles`: extract every archive currently in the
zip cache directory into the output directory, in listing order.  Returns
the final output directory and the names of the archives extracted. -/
def processCachedUsptoZipFiles (zipDir : List (Str × ZipArchive))
    (outDir0 : List (Str × Str)) : List (Str × Str) × List Str :=
  zipDir.foldl extractStep (outDir0, [])


/-!
Record cache writer (`processCachedUsptoXmlData`).
-/

/-- `path.join` on already-normalized relative segments. -/
def pathJoin (a b : Str) : Str := a ++ '/' :: b

/-- `usptoXmlFilePath.split(".")[0]`: everything before the first dot of
the full path. -/
def splitDotHead (s : Str) : Str := s.takeWhile (· ≠ '.')

/-- The derived output path for one raw file:
`path.join(jsonDir, fullPath.split(".")[0] + '.json')`. -/
def outJsonPath (xmlDir jsonDir name : Str) : Str :=
  pathJoin jsonDir (splitDotHead (pathJoin xmlDir name) ++ ".json".toList)

/-- The file loop of `processCachedUsptoXmlData`: parse every raw file (no
existence check against the output directory) and write the serialized
records to the derived output path.  Returns the writes performed (`none`
if some parse threw) and the full paths passed to the parser, in order. -/
def processXmlLoop (parse : Str → ParsedRoot) (xmlDir jsonDir : Str)
    (contents : Str → Str) : List Str →
    Option (List (Str × List UsptoPatentSchemaData)) × List Str
  | [] => (some [], [])
  | name :: rest =>
    let full := pathJoin xmlDir name
    match processUsptoXmlFile parse (contents full) with
    | none => (none, [full])
    | some data =>
      let r := processXmlLoop parse xmlDir jsonDir contents rest
      (r.1.map ((outJsonPath xmlDir jsonDir name, data) :: ·), full :: r.2)

/-- `processCachedUsptoXmlData`: list the raw directory and run the loop.
The output directory listing `outListing` is part of the file-system state
but is never consulted by the code. -/
def processCachedUsptoXmlData (parse : Str → ParsedRoot) (xmlDir jsonDir : Str)
    (listing : List Str) (contents : Str → Str) (_outListing : List Str) :
    Option (List (Str × List UsptoPatentSchemaData)) × List Str :=
  processXmlLoop parse xmlDir jsonDir contents listing


/-!
Ledger-tracked store synchronizer (`synchronizeProcessedDataToMongoDB`).
-/

/-- The state touched by a run: the ledger file (`sync.json`, `none` when
absent), the processed-record directory, and the database rows. -/
structure MongoSyncState where
  ledgerFile : Option (List Str)
  recordDir : List (Str × List UsptoPatentSchemaData)
  store : List UsptoPatentSchemaData
deriving DecidableEq

/-- The row built for one record: the three blob fields pass through
`JSON.stringify` once more before the insert. -/
def mongoRowOf (r : UsptoPatentSchemaData) : UsptoPatentSchemaData :=
  { r with
    patentAbstract := serJStr r.patentAbstract
    patentClaims := serJStr r.patentClaims
    patentHeadings := serJStr r.patentHeadings }

/-- `synchronizeProcessedDataToMongoDB`: read the ledger (creating an empty
one when the file is absent), skip files named in it, and insert one row
per record of every remaining file.  The ledger is never appended to. -/
def synchronizeProcessedDataToMongoDB (st : MongoSyncState) : MongoSyncState :=
  let ledger := st.ledgerFile.getD []
  let files := st.recordDir.filter (fun f => !(ledger.contains f.1))
  let rows := (files.map (fun f => f.2.map mongoRowOf)).flatten
  { ledgerFile := some ledger
    recordDir := st.recordDir
    store := st.store ++ rows }


/-!
Round-trip lemmas for the JSON serializers (claim C4).
-/

/-- Hexadecimal digits decode to their value. -/
lemma hexVal_hexDig {n : Nat} (h : n < 16) : hexVal (hexDig n) = some n := by
  interval_cases n <;> rfl

/-- Reading a `\u00xy` escape yields the encoded character. -/
lemma parseJStrBody_uEsc (d1 d2 : Char) (a b : Nat) (h1 : hexVal d1 = some a)
    (h2 : hexVal d2 = some b) (tail : Str) :
    parseJStrBody ('\\' :: 'u' :: '0' :: '0' :: d1 :: d2 :: tail) =
      (parseJStrBody tail).map (consFst (Char.ofNat (16 * a + b))) := by
  rw [parseJStrBody.eq_def]
  show (match hexVal '0', hexVal '0', hexVal d1, hexVal d2 with
    | some a, some b, some c2, some d =>
      (parseJStrBody tail).map (consFst (Char.ofNat (16 * (16 * (16 * a + b) + c2) + d)))
    | _, _, _, _ => none) = (parseJStrBody tail).map (consFst (Char.ofNat (16 * a + b)))
  rw [h1, h2]
  show (parseJStrBody tail).map (consFst (Char.ofNat (16 * (16 * (16 * 0 + 0) + a) + b))) = _
  norm_num

/-- Reading an escaped character undoes the escape. -/
lemma parseJStrBody_escChar (c : Char) (tail : Str) :
    parseJStrBody (escChar c ++ tail) = (parseJStrBody tail).map (consFst c) := by
  unfold escChar
  split_ifs with h1 h2 h3 h4 h5 h6 h7 h8
  · subst h1; rw [parseJStrBody.eq_def]; rfl
  · subst h2; rw [parseJStrBody.eq_def]; rfl
  · have hc : Char.ofNat c.toNat = c := Char.ofNat_toNat c
    rw [h4] at hc; rw [← hc, parseJStrBody.eq_def]; rfl
  · have hc : Char.ofNat c.toNat = c := Char.ofNat_toNat c
    rw [h5] at hc; rw [← hc, parseJStrBody.eq_def]; rfl
  · have hc : Char.ofNat c.toNat = c := Char.ofNat_toNat c
    rw [h6] at hc; rw [← hc, parseJStrBody.eq_def]; rfl
  · have hc : Char.ofNat c.toNat = c := Char.ofNat_toNat c
    rw [h7] at hc; rw [← hc, parseJStrBody.eq_def]; rfl
  · have hc : Char.ofNat c.toNat = c := Char.ofNat_toNat c
    rw [h8] at hc; rw [← hc, parseJStrBody.eq_def]; rfl
  · have hdiv : c.toNat / 16 < 16 := by omega
    have hmod : c.toNat % 16 < 16 := Nat.mod_lt _ (by omega)
    have hstep := parseJStrBody_uEsc (hexDig (c.toNat / 16)) (hexDig (c.toNat % 16))
      (c.toNat / 16) (c.toNat % 16) (hexVal_hexDig hdiv) (hexVal_hexDig hmod) tail
    have hval : 16 * (c.toNat / 16) + c.toNat % 16 = c.toNat := by omega
    have hform : ['\\', 'u', '0', '0', hexDig (c.toNat / 16), hexDig (c.toNat % 16)] ++ tail =
        '\\' :: 'u' :: '0' :: '0' :: hexDig (c.toNat / 16) :: hexDig (c.toNat % 16) :: tail := by
      simp
    rw [hform, hstep, hval, Char.ofNat_toNat]
  · rw [List.singleton_append, parseJStrBody.eq_def]
    simp only [if_neg h1, if_neg h2]

/-- Reading an escaped body followed by a closing quote recovers the body. -/
lemma parseJStrBody_escStr (s tail : Str) :
    parseJStrBody (escStr s ++ '"' :: tail) = some (s, tail) := by
  induction s with
  | nil =>
    rw [escStr, List.nil_append, parseJStrBody.eq_def]
    rfl
  | cons c cs ih =>
    rw [escStr, List.append_assoc, parseJStrBody_escChar, ih]
    rfl

/-- `JSON.parse` of a `JSON.stringify`-ed string recovers the string. -/
lemma parseJStr_serJStr (s tail : Str) :
    parseJStr (serJStr s ++ tail) = some (s, tail) := by
  rw [serJStr, List.cons_append, parseJStr]
  rw [if_pos rfl, List.append_assoc, List.singleton_append, parseJStrBody_escStr]

/-- A serialized string is nonempty and starts with a quote. -/
lemma serJStr_shape (s : Str) : ∃ t, serJStr s = '"' :: t ∧ ('"' : Char) ≠ ']' := by
  exact ⟨escStr s ++ ['"'], rfl, by decide⟩

/-- Lower bound on the length of a comma-separated item list. -/
lemma commaSep_length (l : List Str) (h : ∀ x ∈ l, 1 ≤ x.length) :
    l.length ≤ (commaSep l).length + 1 := by
  induction l with
  | nil => simp
  | cons x xs ih =>
    cases xs with
    | nil =>
      have hone : commaSep [x] = x := rfl
      rw [hone]
      simp
    | cons y ys =>
      have hcs : commaSep (x :: y :: ys) = x ++ ',' :: commaSep (y :: ys) := rfl
      rw [hcs]
      have hx := h x (by simp)
      have hys := ih (fun z hz => h z (List.mem_cons_of_mem _ hz))
      simp only [List.length_cons, List.length_append] at *
      omega

/-- Reading comma-separated serialized elements terminated by `]` recovers
the element list, for any sufficient fuel. -/
lemma parseElems_commaSep (pe : Str → Option (α × Str)) (ser : α → Str)
    (hpe : ∀ (x : α) (r : Str), pe (ser x ++ r) = some (x, r)) :
    ∀ (l : List α), l ≠ [] → ∀ (fuel : Nat), l.length ≤ fuel → ∀ (tail : Str),
    parseElems pe fuel (commaSep (l.map ser) ++ ']' :: tail) = some (l, tail) := by
  intro l
  induction l with
  | nil => intro h; exact absurd rfl h
  | cons x xs ih =>
    intro _ fuel hfuel tail
    match fuel, hfuel with
    | f + 1, hfuel =>
      cases xs with
      | nil =>
        rw [List.map_cons, List.map_nil, commaSep, parseElems, hpe]
        rfl
      | cons y ys =>
        have hcs : commaSep (ser x :: ser y :: List.map ser ys) =
            ser x ++ ',' :: commaSep (ser y :: List.map ser ys) := rfl
        rw [List.map_cons, List.map_cons, hcs, List.append_assoc,
          List.cons_append, parseElems, hpe]
        have := ih (by simp) f (by simpa using hfuel) tail
        rw [List.map_cons] at this
        simp [this]

/-- `JSON.parse` of a `JSON.stringify`-ed array recovers the list, given a
round-tripping element serializer whose output never starts with `]`. -/
lemma parseArr_serArr (pe : Str → Option (α × Str)) (ser : α → Str)
    (hpe : ∀ (x : α) (r : Str), pe (ser x ++ r) = some (x, r))
    (hshape : ∀ x : α, ∃ c t, ser x = c :: t ∧ c ≠ ']')
    (l : List α) (tail : Str) :
    parseArr pe (serArr ser l ++ tail) = some (l, tail) := by
  cases l with
  | nil =>
    rw [serArr]
    rfl
  | cons x xs =>
    obtain ⟨c, t, hser, hc⟩ := hshape x
    have hhead : ∃ u, commaSep ((x :: xs).map ser) = c :: u := by
      cases xs with
      | nil => exact ⟨t, by rw [List.map_cons, List.map_nil, commaSep, hser]⟩
      | cons y ys =>
        refine ⟨t ++ ',' :: commaSep ((y :: ys).map ser), ?_⟩
        have hcs : commaSep (ser x :: (y :: ys).map ser) =
            ser x ++ ',' :: commaSep ((y :: ys).map ser) := rfl
        rw [List.map_cons, hcs, hser]
        rfl
    obtain ⟨u, hu⟩ := hhead
    have hlen : (x :: xs).length ≤ (c :: u ++ ']' :: tail).length + 1 := by
      have h1 : (x :: xs).length ≤ (commaSep ((x :: xs).map ser)).length + 1 := by
        have := commaSep_length ((x :: xs).map ser)
          (fun z hz => by
            obtain ⟨w, hw⟩ := List.mem_map.mp hz
            obtain ⟨c2, t2, hser2, _⟩ := hshape w
            rw [← hw.2, hser2]; simp)
        simpa using this
      rw [← hu]
      simp only [List.length_append, List.length_cons] at *
      omega
    rw [serArr, List.cons_append, List.append_assoc, List.singleton_append, hu]
    rw [parseArr.eq_def]
    simp only [List.cons_append, if_pos rfl, if_neg hc]
    have := parseElems_commaSep pe ser hpe (x :: xs) (by simp)
      ((c :: (u ++ ']' :: tail)).length + 1)
      (by simpa using hlen) tail
    rw [hu] at this
    simpa using this

/-- Stripping a literal off itself succeeds. -/
lemma stripLit_append (p r : Str) : stripLit p (p ++ r) = some r := by
  induction p with
  | nil => rfl
  | cons c cs ih => rw [List.cons_append, stripLit, if_pos rfl, ih]

/-- Round trip for the string-array serializer. -/
lemma parseStrArr_serStrArr (l : List Str) (tail : Str) :
    parseStrArr (serStrArr l ++ tail) = some (l, tail) :=
  parseArr_serArr parseJStr serJStr parseJStr_serJStr
    (fun x => by obtain ⟨t, ht, hc⟩ := serJStr_shape x; exact ⟨'"', t, ht, hc⟩) l tail

/-- Round trip for one serialized claim object. -/
lemma parseClaim_serClaim (c : PatentClaim) (tail : Str) :
    parseClaim (serClaim c ++ tail) = some (c, tail) := by
  rw [parseClaim, serClaim]
  rw [List.append_assoc, List.append_assoc, List.append_assoc, List.append_assoc]
  simp [stripLit_append, parseJStr_serJStr, parseStrArr_serStrArr]
  rfl

/-- Round trip for the claim-array serializer. -/
lemma parseClaimArr_serClaimArr (l : List PatentClaim) (tail : Str) :
    parseClaimArr (serClaimArr l ++ tail) = some (l, tail) :=
  parseArr_serArr parseClaim serClaim parseClaim_serClaim
    (fun x => ⟨'\x7b', (serClaim x).tail, by rw [serClaim]; rfl, by decide⟩) l tail

/-- C4: serializing a record's nested fields to the StoredRecord text blobs
(`JSON.stringify` at lines 317–319) and re-parsing those blobs recovers the
original sequences exactly, in order and content; the rows pushed to the
store (`mongoRowOf`, lines 432–434) wrap each blob in one more string
encoding, which one further parse undoes. -/
theorem serialization_roundtrip (d : UsptoPatentData) :
    parseStrArr (toSchemaData d).patentAbstract = some (d.patentAbstract, []) ∧
    parseClaimArr (toSchemaData d).patentClaims = some (d.patentClaims, []) ∧
    parseStrArr (toSchemaData d).patentHeadings = some (d.patentHeadings, []) ∧
    parseJStr (mongoRowOf (toSchemaData d)).patentAbstract =
      some ((toSchemaData d).patentAbstract, []) ∧
    parseJStr (mongoRowOf (toSchemaData d)).patentClaims =
      some ((toSchemaData d).patentClaims, []) ∧
    parseJStr (mongoRowOf (toSchemaData d)).patentHeadings =
      some ((toSchemaData d).patentHeadings, []) := by
  refine ⟨?_, ?_, ?_, ?_, ?_, ?_⟩
  · simpa [toSchemaData] using parseStrArr_serStrArr d.patentAbstract []
  · simpa [toSchemaData] using parseClaimArr_serClaimArr d.patentClaims []
  · simpa [toSchemaData] using parseStrArr_serStrArr d.patentHeadings []
  · simpa [mongoRowOf] using parseJStr_serJStr (toSchemaData d).patentAbstract []
  · simpa [mongoRowOf] using parseJStr_serJStr (toSchemaData d).patentClaims []
  · simpa [mongoRowOf] using parseJStr_serJStr (toSchemaData d).patentHeadings []


/-!
Correctness of the document-section matcher on well-formed batch text
(claim C1).
-/

/-- The open literal has 22 characters. -/
lemma openLit_length : openLit.length = 22 := rfl

/-- The close literal has 24 characters. -/
lemma closeLit_length : closeLit.length = 24 := rfl

/-- A case-insensitive match needs at least the pattern's length. -/
lemma ciStartsWith_le_length (p cs : Str) (h : ciStartsWith p cs = true) :
    p.length ≤ cs.length := by
  induction p generalizing cs with
  | nil => simp
  | cons pc ps ih =>
    cases cs with
    | nil => simp [ciStartsWith] at h
    | cons c t =>
      rw [ciStartsWith, Bool.and_eq_true] at h
      have := ih t h.2
      simp only [List.length_cons]
      omega

/-- Appending beyond the pattern's reach does not change a match. -/
lemma ciStartsWith_append (p a b : Str) (h : p.length ≤ a.length) :
    ciStartsWith p (a ++ b) = ciStartsWith p a := by
  induction p generalizing a with
  | nil => rfl
  | cons pc ps ih =>
    cases a with
    | nil => simp at h
    | cons ac at' =>
      rw [List.cons_append, ciStartsWith, ciStartsWith,
        ih at' (by simpa using h)]

/-- Decomposition of a successful open-pattern match. -/
lemma isOpenAt_parts (s : Str) (h : isOpenAt s = true) :
    ciStartsWith openLit s = true ∧
      ∃ c t, s.drop 22 = c :: t ∧ isJsSpace c = true := by
  rw [isOpenAt, Bool.and_eq_true] at h
  refine ⟨h.1, ?_⟩
  have h2 := h.2
  rcases hd : s.drop 22 with _ | ⟨c, t⟩
  · rw [hd] at h2; exact absurd h2 (by simp)
  · rw [hd] at h2; exact ⟨c, t, rfl, h2⟩

/-- A segment matching the open pattern has at least 23 characters. -/
lemma isOpenAt_length (s : Str) (h : isOpenAt s = true) : 23 ≤ s.length := by
  obtain ⟨h1, c, t, hd, _⟩ := isOpenAt_parts s h
  have h22 : (22 : Nat) ≤ s.length := by
    have := ciStartsWith_le_length openLit s h1
    rwa [openLit_length] at this
  have : (s.drop 22).length = s.length - 22 := List.length_drop 22 s
  rw [hd] at this
  simp only [List.length_cons] at this
  omega

/-- The open pattern still matches after appending more text. -/
lemma isOpenAt_append (s r : Str) (h : isOpenAt s = true) :
    isOpenAt (s ++ r) = true := by
  obtain ⟨h1, c, t, hd, hsp⟩ := isOpenAt_parts s h
  have hlen : 23 ≤ s.length := isOpenAt_length s h
  rw [isOpenAt, Bool.and_eq_true]
  constructor
  · rw [ciStartsWith_append openLit s r (by rw [openLit_length]; omega)]
    exact h1
  · rw [List.drop_append_of_le_length (by omega), hd, List.cons_append]
    exact hsp

/-- The close pattern ignores appended text once it has 24 characters. -/
lemma isCloseAt_append (a b : Str) (h : 24 ≤ a.length) :
    isCloseAt (a ++ b) = isCloseAt a := by
  rw [isCloseAt, isCloseAt,
    ciStartsWith_append closeLit a b (by rw [closeLit_length]; omega)]

/-- `firstIdx` returns 0 where the predicate already holds. -/
lemma firstIdx_zero (p : Str → Bool) (cs : Str) (h : p cs = true) :
    firstIdx p cs = some 0 := by
  cases cs with
  | nil => rw [firstIdx, if_pos h]
  | cons c t => rw [firstIdx, if_pos h]

/-- `firstIdx` finds the first position where the predicate holds. -/
lemma firstIdx_first (p : Str → Bool) :
    ∀ (n : Nat) (cs : Str), (∀ k < n, p (cs.drop k) = false) →
    p (cs.drop n) = true → firstIdx p cs = some n := by
  intro n
  induction n with
  | zero => intro cs _ h; exact firstIdx_zero p cs (by simpa using h)
  | succ m ih =>
    intro cs hlt hn
    have h0 : p cs = false := by simpa using hlt 0 (Nat.succ_pos m)
    cases cs with
    | nil =>
      rw [List.drop_nil] at hn
      rw [h0] at hn
      exact absurd hn (by simp)
    | cons c t =>
      rw [firstIdx, if_neg (by rw [h0]; simp)]
      have := ih t (fun k hk => by
          have := hlt (k + 1) (by omega)
          simpa using this)
        (by simpa using hn)
      rw [this]
      rfl

/-- On text that is the concatenation of well-formed segments, the section
scan recovers exactly those segments, in order. -/
lemma matchSectionsAux_flatten (segs : List Str) :
    ∀ fuel : Nat, (∀ s ∈ segs, WfSegment s) → (segs.flatten).length < fuel →
    matchSectionsAux fuel segs.flatten = segs := by
  induction segs with
  | nil =>
    intro fuel _ hfuel
    cases fuel with
    | zero => omega
    | succ f => rfl
  | cons s rest ih =>
    intro fuel hwf hfuel
    obtain ⟨ho, h47, hcl, huniq⟩ := hwf s (by simp)
    cases fuel with
    | zero => simp at hfuel
    | succ f =>
      rw [List.flatten_cons] at hfuel ⊢
      have ha : firstIdx isOpenAt (s ++ rest.flatten) = some 0 :=
        firstIdx_zero _ _ (isOpenAt_append s _ ho)
      have hdrop23 : (s ++ rest.flatten).drop 23 = s.drop 23 ++ rest.flatten :=
        List.drop_append_of_le_length (by omega)
      have hc : firstIdx isCloseAt ((s ++ rest.flatten).drop 23) =
          some (s.length - 47) := by
        rw [hdrop23]
        apply firstIdx_first
        · intro k hk
          have hdd : (s.drop 23 ++ rest.flatten).drop k =
              s.drop (23 + k) ++ rest.flatten := by
            rw [List.drop_append_of_le_length
              (by simp only [List.length_drop]; omega), List.drop_drop]
          rw [hdd, isCloseAt_append _ _ (by simp only [List.length_drop]; omega)]
          cases hb : isCloseAt (s.drop (23 + k)) with
          | false => rfl
          | true =>
            have := huniq (23 + k) (by omega) hb
            omega
        · have hdd : (s.drop 23 ++ rest.flatten).drop (s.length - 47) =
              s.drop (s.length - 24) ++ rest.flatten := by
            rw [List.drop_append_of_le_length
              (by simp only [List.length_drop]; omega), List.drop_drop]
            have harith : 23 + (s.length - 47) = s.length - 24 := by omega
            rw [harith]
          rw [hdd, isCloseAt_append _ _ (by simp only [List.length_drop]; omega), hcl]
      have hflen : rest.flatten.length < f := by
        have h1 : (s ++ rest.flatten).length = s.length + rest.flatten.length :=
          List.length_append _ _
        omega
      have hrec : matchSectionsAux f rest.flatten = rest :=
        ih f (fun x hx => hwf x (by simp [hx])) hflen
      have hmlen : 23 + (s.length - 47) + 24 = s.length := by omega
      rw [matchSectionsAux]
      simp only [ha, hc, List.drop_zero]
      rw [hmlen, List.take_left, List.drop_left, hrec]

/-- `matchSections` on a well-formed batch returns its segments. -/
lemma matchSections_flatten (segs : List Str) (hwf : ∀ s ∈ segs, WfSegment s) :
    matchSections segs.flatten = segs :=
  matchSectionsAux_flatten segs (segs.flatten.length + 1) hwf (Nat.lt_succ_self _)

/-- `jsMatchSections` is `some` exactly on a non-empty match list. -/
lemma jsMatchSections_eq (cs : Str) (l : List Str) (h : matchSections cs = l)
    (hne : l ≠ []) : jsMatchSections cs = some l := by
  rw [jsMatchSections, h]
  cases l with
  | nil => exact absurd rfl hne
  | cons a t => rfl

/-- Successful projection of every section gives the schema list in order. -/
lemma processSections_projectAll (parse : Str → ParsedRoot) (segs : List Str) :
    ∀ ds : List UsptoPatentData, projectAll parse segs = some ds →
    processSections parse segs = some (ds.map toSchemaData) := by
  induction segs with
  | nil =>
    intro ds h
    rw [projectAll] at h
    obtain rfl := Option.some.inj h
    rfl
  | cons s rest ih =>
    intro ds h
    rw [projectAll] at h
    cases hp : projectPatent (parse s) with
    | none => rw [hp] at h; simp at h
    | some d =>
      rw [hp] at h
      cases hr : projectAll parse rest with
      | none => rw [hr] at h; simp at h
      | some ds' =>
        rw [hr] at h
        simp only [Option.map_some'] at h
        obtain rfl := Option.some.inj h
        rw [processSections, hp, ih ds' hr]
        rfl

/-- Projection preserves the number of documents. -/
lemma projectAll_length (parse : Str → ParsedRoot) (segs : List Str) :
    ∀ ds : List UsptoPatentData, projectAll parse segs = some ds →
    ds.length = segs.length := by
  induction segs with
  | nil =>
    intro ds h
    rw [projectAll] at h
    obtain rfl := Option.some.inj h
    rfl
  | cons s rest ih =>
    intro ds h
    rw [projectAll] at h
    cases hp : projectPatent (parse s) with
    | none => rw [hp] at h; simp at h
    | some d =>
      rw [hp] at h
      cases hr : projectAll parse rest with
      | none => rw [hr] at h; simp at h
      | some ds' =>
        rw [hr] at h
        simp only [Option.map_some'] at h
        obtain rfl := Option.some.inj h
        simp [ih ds' hr]

/-- A successful projection reads the first abstract, description and claims
elements and maps their children in order. -/
lemma projectPatent_fields (root : ParsedRoot) (d : UsptoPatentData)
    (hproj : projectPatent root = some d) :
    (∃ ab abtl, root.abstract = ab :: abtl ∧
      d.patentAbstract = ab.p.map PNode.text) ∧
    (∃ de detl, root.description = de :: detl ∧
      d.patentHeadings = de.heading.map HeadingNode.text) ∧
    (∃ cl cltl cts, root.claims = cl :: cltl ∧ claimHeads cl.claim = some cts ∧
      d.patentClaims = cts.map (fun ct => ⟨ct.text, ct.claimText⟩)) := by
  unfold projectPatent at hproj
  rcases hab : root.abstract with _ | ⟨ab, abtl⟩ <;> rw [hab] at hproj
  · simp at hproj
  rcases hcl : root.claims with _ | ⟨cl, cltl⟩ <;> rw [hcl] at hproj
  · simp at hproj
  simp only [List.head?_cons] at hproj
  cases hcts : claimHeads cl.claim with
  | none => rw [hcts] at hproj; simp at hproj
  | some cts =>
  rw [hcts] at hproj
  rcases hde : root.description with _ | ⟨de, detl⟩ <;> rw [hde] at hproj
  · simp at hproj
  rcases hbib : root.biblio with _ | ⟨bib, bibtl⟩ <;> rw [hbib] at hproj
  · simp at hproj
  simp only [List.head?_cons] at hproj
  rcases hit : bib.inventionTitle with _ | ⟨it, ittl⟩ <;> rw [hit] at hproj
  · simp at hproj
  rcases hpr : bib.publicationReference with _ | ⟨pr, prtl⟩ <;> rw [hpr] at hproj
  · simp at hproj
  simp only [List.head?_cons] at hproj
  rcases hdi : pr.documentId with _ | ⟨di, ditl⟩ <;> rw [hdi] at hproj
  · simp at hproj
  simp only [List.head?_cons] at hproj
  rcases hdn : di.docNumber with _ | ⟨dn, dntl⟩ <;> rw [hdn] at hproj
  · simp at hproj
  simp only [List.head?_cons] at hproj
  obtain rfl := Option.some.inj hproj
  exact ⟨⟨ab, abtl, rfl, rfl⟩, ⟨de, detl, rfl, rfl⟩, ⟨cl, cltl, cts, rfl, hcts, rfl⟩⟩

/-- A concrete parsed document used in concrete evaluations. -/
def sampleRoot : ParsedRoot :=
  { lang := "EN".toList
    country := "US".toList
    dateProduced := "20060101".toList
    datePubl := "20060105".toList
    dtdVersion := "v4.0".toList
    file := "f.xml".toList
    status := "PRODUCTION".toList
    abstract := [⟨[⟨"p1".toList⟩, ⟨"p2".toList⟩]⟩]
    claims := [⟨[⟨[⟨"g1".toList, ["i1".toList, "i2".toList]⟩]⟩]⟩]
    description := [⟨[⟨"h1".toList⟩, ⟨"h2".toList⟩]⟩]
    biblio := [⟨[⟨"Title".toList, "id1".toList⟩], [⟨[⟨["US001".toList]⟩]⟩]⟩] }

/-- A parse function returning the concrete document for every section. -/
def sampleParse : Str → ParsedRoot := fun _ => sampleRoot

/-- A minimal well-formed document segment. -/
def sampleSeg : Str := "<us-patent-application x</us-patent-application>".toList

/-- The record projected from `sampleRoot`. -/
def sampleData : UsptoPatentData :=
  { language := "EN".toList
    country := "US".toList
    dateProduced := "20060101".toList
    datePublished := "20060105".toList
    dtdVersion := "v4.0".toList
    xmlFile := "f.xml".toList
    patentStatus := "PRODUCTION".toList
    patentAbstract := ["p1".toList, "p2".toList]
    patentClaims := [⟨"g1".toList, ["i1".toList, "i2".toList]⟩]
    patentHeadings := ["h1".toList, "h2".toList]
    inventionTitle := "Title".toList
    inventionId := "id1".toList
    documentNumber := "US001".toList }

/-- C1 (amended: at least one segment; with zero segments the call throws,
see the counterexample): for a batch file whose text is the concatenation
of `N ≥ 1` well-formed document segments, each of which projects to a
record, `processUsptoXmlFile` returns exactly `N` records in source order;
within each record the abstract paragraphs, headings and each claim's
individual claims are the order-preserving images of the corresponding node
lists of the source document. -/
theorem processUsptoXmlFile_batch (parse : Str → ParsedRoot) (segs : List Str)
    (ds : List UsptoPatentData) (hne : segs ≠ [])
    (hwf : ∀ s ∈ segs, WfSegment s)
    (hrec : projectAll parse segs = some ds) :
    processUsptoXmlFile parse segs.flatten = some (ds.map toSchemaData) ∧
    ds.length = segs.length ∧
    (∀ root d, projectPatent root = some d →
      (∃ ab abtl, root.abstract = ab :: abtl ∧
        d.patentAbstract = ab.p.map PNode.text) ∧
      (∃ de detl, root.description = de :: detl ∧
        d.patentHeadings = de.heading.map HeadingNode.text) ∧
      (∃ cl cltl cts, root.claims = cl :: cltl ∧ claimHeads cl.claim = some cts ∧
        d.patentClaims = cts.map (fun ct => ⟨ct.text, ct.claimText⟩))) := by
  refine ⟨?_, projectAll_length parse segs ds hrec,
    fun root d h => projectPatent_fields root d h⟩
  rw [processUsptoXmlFile,
    jsMatchSections_eq segs.flatten segs (matchSections_flatten segs hwf) hne]
  exact processSections_projectAll parse segs ds hrec

/-- C1 counterexample: on a batch whose text contains exactly `N = 0`
well-formed document segments (the empty text), `String.match` returns
`null` and the `for…of` loop throws, so the call fails instead of returning
an empty record sequence as the claim states. -/
theorem processUsptoXmlFile_empty_batch_fails :
    (∀ s ∈ ([] : List Str), WfSegment s) ∧
    processUsptoXmlFile sampleParse (List.flatten ([] : List Str)) = none ∧
    processUsptoXmlFile sampleParse (List.flatten ([] : List Str)) ≠
      some (List.map toSchemaData []) := by
  refine ⟨by simp, rfl, by decide⟩

/-- C1 witness: the amended theorem applied to one concrete well-formed
segment. -/
theorem processUsptoXmlFile_batch_witness :
    processUsptoXmlFile sampleParse (List.flatten [sampleSeg]) =
      some ([sampleData].map toSchemaData) :=
  (processUsptoXmlFile_batch sampleParse [sampleSeg] [sampleData]
    (by decide) (by decide) (by decide)).1


/-!
Claims C5 and C6: discovery order, truncation and the linkless-page
failure.
-/

/-- The ascending year list decomposes at its head. -/
lemma yearRange_cons (s e : Nat) (hse : s ≤ e) :
    yearRange s e = s :: yearRange (s + 1) e := by
  unfold yearRange
  have h1 : e + 1 - s = (e + 1 - (s + 1)) + 1 := by omega
  rw [h1, List.range_succ_eq_map, List.map_cons, Nat.add_zero, List.map_map]
  congr 1
  congr 1
  funext x
  simp only [Function.comp_apply]
  omega

/-- The year loop visits exactly the years of `yearRange`, in order. -/
lemma fetchYearLoop_eq (fetchHtml : Nat → Str) :
    ∀ (n s e : Nat), e + 1 - s = n →
    fetchYearLoop fetchHtml s e =
      (yearRange s e).map (fun y => ⟨yearUrl y, fetchHtml y⟩) := by
  intro n
  induction n with
  | zero =>
    intro s e h
    rw [fetchYearLoop, h, yearRange, h]
    rfl
  | succ m ih =>
    intro s e h
    have hse : s ≤ e := by omega
    have hn : e + 1 - (s + 1) = m := by omega
    have hrest := ih (s + 1) e hn
    rw [fetchYearLoop, hn] at hrest
    rw [fetchYearLoop, h, fetchYearsFrom, hrest, yearRange_cons s e hse,
      List.map_cons]

/-- A `some` result of the null-checking link match is the raw match list. -/
lemma jsMatchLinks_some (cs : Str) (ms : List Str) (h : jsMatchLinks cs = some ms) :
    linkMatches cs = ms := by
  rw [jsMatchLinks] at h
  cases hl : linkMatches cs with
  | nil => rw [hl] at h; simp at h
  | cons a t => rw [hl] at h; exact Option.some.inj h

/-- A successful `forEach` accumulation is the concatenation of the pages'
reference lists, in page order. -/
lemma collectInfos_eq (pages : List PageResponse) :
    ∀ r : List UsptoZipFileInfo, collectInfos pages = some r →
    r = (pages.map pageInfos).flatten := by
  induction pages with
  | nil =>
    intro r h
    rw [collectInfos] at h
    obtain rfl := Option.some.inj h
    rfl
  | cons p rest ih =>
    intro r h
    rw [collectInfos] at h
    cases hm : jsMatchLinks p.data with
    | none => rw [hm] at h; simp at h
    | some ms =>
      rw [hm] at h
      cases hr : collectInfos rest with
      | none => rw [hr] at h; simp at h
      | some tail =>
        rw [hr] at h
        simp only [Option.map_some'] at h
        obtain rfl := Option.some.inj h
        rw [List.map_cons, List.flatten_cons, ih tail hr, pageInfos,
          jsMatchLinks_some p.data ms hm]

/-- A page with zero matching links fails the whole accumulation. -/
lemma collectInfos_none (pages : List PageResponse) (p : PageResponse)
    (hp : p ∈ pages) (hz : linkMatches p.data = []) : collectInfos pages = none := by
  induction pages with
  | nil => cases hp
  | cons q rest ih =>
    rw [collectInfos]
    rcases List.mem_cons.mp hp with rfl | hmem
    · rw [jsMatchLinks, hz]
    · cases hm : jsMatchLinks q.data with
      | none => rfl
      | some ms => rw [ih hmem]; rfl

/-- C5: whenever `fetchUsptoZipFileInfos` returns a list, that list has at
most `fileLimit` elements and is the concatenation of each year's matched
references — years ascending, within-year match order preserved — truncated
to the first `fileLimit` entries; the defaults are `fileLimit = 1` and
`startYear = 2005`. -/
theorem fetchUsptoZipFileInfos_spec (fetchHtml : Nat → Str) (fileLimit s e : Nat)
    (r : List UsptoZipFileInfo)
    (h : fetchUsptoZipFileInfos fetchHtml fileLimit s e = some r) :
    r.length ≤ fileLimit ∧
    r = (((yearRange s e).map
        (fun y => pageInfos ⟨yearUrl y, fetchHtml y⟩)).flatten).take fileLimit ∧
    fileLimitDefault = 1 ∧ startYearDefault = 2005 := by
  rw [fetchUsptoZipFileInfos] at h
  cases hc : collectInfos (fetchYearLoop fetchHtml s e) with
  | none => rw [hc] at h; simp at h
  | some infos =>
    rw [hc] at h
    simp only [Option.map_some'] at h
    obtain rfl := Option.some.inj h
    have h1 := collectInfos_eq _ infos hc
    rw [fetchYearLoop_eq fetchHtml (e + 1 - s) s e rfl, List.map_map] at h1
    refine ⟨List.length_take_le _ _, ?_, rfl, rfl⟩
    rw [h1]
    rfl

/-- A sample index page containing exactly one zip link. -/
def sampleHtml : Str := "<a href=\"ipa050106.zip\">".toList

/-- A fetch function returning the sample page for every year. -/
def sampleFetchHtml : Nat → Str := fun _ => sampleHtml

/-- The reference extracted from the sample page for the year 2005. -/
def sampleInfo : UsptoZipFileInfo :=
  ⟨"ipa050106.zip".toList, yearUrl 2005 ++ "ipa050106.zip".toList⟩

/-- C5 witness: the theorem applied to one concrete page with one link. -/
theorem fetchUsptoZipFileInfos_spec_witness :
    [sampleInfo].length ≤ 1 ∧
    [sampleInfo] = (((yearRange 2005 2005).map
        (fun y => pageInfos ⟨yearUrl y, sampleFetchHtml y⟩)).flatten).take 1 ∧
    fileLimitDefault = 1 ∧ startYearDefault = 2005 :=
  fetchUsptoZipFileInfos_spec sampleFetchHtml 1 2005 2005 [sampleInfo] (by rfl)

/-- C6 counterexample: a fetched page whose markup contains zero hyperlinks
matching the zip-link pattern does make the call fail — `String.match`
returns `null` and the `.map` on it throws — instead of contributing zero
references and continuing. -/
theorem fetchUsptoZipFileInfos_linkless_cex :
    linkMatches ("no zip links here".toList) = [] ∧
    fetchUsptoZipFileInfos (fun _ => "no zip links here".toList) 1 2005 2005 =
      none := by
  exact ⟨rfl, rfl⟩

/-- C6 (amended): for every fetched index page with zero matching links,
the whole call fails (returns nothing): that year contributes no references
because no year contributes anything at all. -/
theorem fetchUsptoZipFileInfos_linkless_fails (fetchHtml : Nat → Str)
    (fileLimit s e y : Nat) (hy : y ∈ yearRange s e)
    (hz : linkMatches (fetchHtml y) = []) :
    fetchUsptoZipFileInfos fetchHtml fileLimit s e = none := by
  rw [fetchUsptoZipFileInfos]
  have hpage : (⟨yearUrl y, fetchHtml y⟩ : PageResponse) ∈
      fetchYearLoop fetchHtml s e := by
    rw [fetchYearLoop_eq fetchHtml (e + 1 - s) s e rfl]
    exact List.mem_map.mpr ⟨y, hy, rfl⟩
  rw [collectInfos_none _ _ hpage hz]
  rfl

/-- C6 witness: the amended theorem applied to a concrete linkless page. -/
theorem fetchUsptoZipFileInfos_linkless_fails_witness :
    fetchUsptoZipFileInfos (fun _ => "nolinks".toList) 1 2005 2006 = none :=
  fetchUsptoZipFileInfos_linkless_fails (fun _ => "nolinks".toList) 1 2005 2006
    2005 (by decide) (by rfl)


/-!
Claims C7 and C8: the archive cache synchronizer.
-/

/-- The loop fetches exactly the references whose names are missing from
the listing, in order, and completes when those fetches succeed. -/
lemma syncZipLoop_fetched {β : Type} (fetch : Str → Option β) (listing : List Str) :
    ∀ (infos : List UsptoZipFileInfo) (dir : List (Str × β)) (log : List Str),
    (∀ i ∈ infos, i.name ∉ listing → (fetch i.url).isSome) →
    (syncZipLoop fetch listing infos dir log).fetched =
      log ++ (infos.filter (fun i => i.name ∉ listing)).map UsptoZipFileInfo.url ∧
    (syncZipLoop fetch listing infos dir log).ok = true := by
  intro infos
  induction infos with
  | nil => intro dir log _; simp [syncZipLoop]
  | cons i rest ih =>
    intro dir log hsucc
    rw [syncZipLoop]
    by_cases hmem : i.name ∈ listing
    · rw [if_pos hmem]
      have hr := ih dir log (fun j hj => hsucc j (List.mem_cons_of_mem _ hj))
      refine ⟨?_, hr.2⟩
      rw [hr.1, List.filter_cons_of_neg (by simp [hmem])]
    · rw [if_neg hmem]
      have hs := hsucc i (List.mem_cons_self _ _) hmem
      cases hf : fetch i.url with
      | none => rw [hf] at hs; simp at hs
      | some payload =>
        have hr := ih (dir ++ [(i.name, payload)]) (log ++ [i.url])
          (fun j hj => hsucc j (List.mem_cons_of_mem _ hj))
        refine ⟨?_, hr.2⟩
        rw [hr.1, List.filter_cons_of_pos (by simp [hmem]), List.map_cons,
          List.append_assoc, List.singleton_append]

/-- When every name is already listed, the loop changes nothing. -/
lemma syncZipLoop_all_cached {β : Type} (fetch : Str → Option β) (listing : List Str) :
    ∀ (infos : List UsptoZipFileInfo) (dir : List (Str × β)) (log : List Str),
    (∀ i ∈ infos, i.name ∈ listing) →
    syncZipLoop fetch listing infos dir log = ⟨true, dir, log⟩ := by
  intro infos
  induction infos with
  | nil => intro dir log _; rfl
  | cons i rest ih =>
    intro dir log hall
    rw [syncZipLoop, if_pos (hall i (List.mem_cons_self _ _))]
    exact ih dir log (fun j hj => hall j (List.mem_cons_of_mem _ hj))

/-- C7: a fetch is performed exactly for the references whose name is
absent from the directory listing taken at the start of the call (stated
for runs whose fetches succeed); in particular, when every reference's name
is already present, the call performs zero fetches, writes no files, and
completes. -/
theorem synchronizeUsptoZipFiles_cached {β : Type} (fetch : Str → Option β)
    (infos : List UsptoZipFileInfo) (dir0 : List (Str × β)) :
    ((∀ i ∈ infos, (fetch i.url).isSome) →
      (synchronizeUsptoZipFiles fetch infos dir0).fetched =
        (infos.filter (fun i => i.name ∉ dir0.map Prod.fst)).map
          UsptoZipFileInfo.url) ∧
    ((∀ i ∈ infos, i.name ∈ dir0.map Prod.fst) →
      (synchronizeUsptoZipFiles fetch infos dir0).ok = true ∧
      (synchronizeUsptoZipFiles fetch infos dir0).fetched = [] ∧
      (synchronizeUsptoZipFiles fetch infos dir0).dir = dir0) := by
  constructor
  · intro hsucc
    have := syncZipLoop_fetched fetch (dir0.map Prod.fst) infos dir0 []
      (fun i hi _ => hsucc i hi)
    rw [synchronizeUsptoZipFiles, this.1, List.nil_append]
  · intro hall
    rw [synchronizeUsptoZipFiles, syncZipLoop_all_cached fetch _ infos dir0 [] hall]
    exact ⟨rfl, rfl, rfl⟩

/-- A fetch function that succeeds on every URL (concrete payloads). -/
def sampleFetchOk : Str → Option Nat := fun _ => some 0

/-- A cache directory already holding the sample archive. -/
def sampleCachedDir : List (Str × Nat) := [("a.zip".toList, 7)]

/-- The sample reference list naming the already-cached archive. -/
def sampleInfos : List UsptoZipFileInfo :=
  [⟨"a.zip".toList, "https://x/a.zip".toList⟩]

/-- C7 witness: the theorem applied to a fully-cached reference set. -/
theorem synchronizeUsptoZipFiles_cached_witness :
    ((synchronizeUsptoZipFiles sampleFetchOk sampleInfos sampleCachedDir).fetched =
      (sampleInfos.filter
        (fun i => i.name ∉ sampleCachedDir.map Prod.fst)).map
        UsptoZipFileInfo.url) ∧
    (synchronizeUsptoZipFiles sampleFetchOk sampleInfos sampleCachedDir).ok = true ∧
    (synchronizeUsptoZipFiles sampleFetchOk sampleInfos sampleCachedDir).fetched = [] ∧
    (synchronizeUsptoZipFiles sampleFetchOk sampleInfos sampleCachedDir).dir =
      sampleCachedDir :=
  ⟨(synchronizeUsptoZipFiles_cached sampleFetchOk sampleInfos sampleCachedDir).1
      (by decide),
   (synchronizeUsptoZipFiles_cached sampleFetchOk sampleInfos sampleCachedDir).2
      (by decide)⟩

/-- Running the loop on a concatenation first runs the leading references,
provided every needed leading fetch succeeds. -/
lemma syncZipLoop_append {β : Type} (fetch : Str → Option β) (listing : List Str) :
    ∀ (pre rest : List UsptoZipFileInfo) (dir : List (Str × β)) (log : List Str),
    (∀ i ∈ pre, i.name ∉ listing → (fetch i.url).isSome) →
    syncZipLoop fetch listing (pre ++ rest) dir log =
      syncZipLoop fetch listing rest
        (syncZipLoop fetch listing pre dir log).dir
        (syncZipLoop fetch listing pre dir log).fetched := by
  intro pre
  induction pre with
  | nil => intro rest dir log _; rfl
  | cons i pre' ih =>
    intro rest dir log hsucc
    rw [List.cons_append, syncZipLoop, syncZipLoop]
    by_cases hmem : i.name ∈ listing
    · rw [if_pos hmem, if_pos hmem]
      exact ih rest dir log (fun j hj => hsucc j (List.mem_cons_of_mem _ hj))
    · rw [if_neg hmem, if_neg hmem]
      have hs := hsucc i (List.mem_cons_self _ _) hmem
      cases hf : fetch i.url with
      | none => rw [hf] at hs; simp at hs
      | some payload =>
        exact ih rest (dir ++ [(i.name, payload)]) (log ++ [i.url])
          (fun j hj => hsucc j (List.mem_cons_of_mem _ hj))

/-- The loop only ever appends to the cache directory. -/
lemma syncZipLoop_dir_extend {β : Type} (fetch : Str → Option β) (listing : List Str) :
    ∀ (infos : List UsptoZipFileInfo) (dir : List (Str × β)) (log : List Str),
    ∃ w, (syncZipLoop fetch listing infos dir log).dir = dir ++ w := by
  intro infos
  induction infos with
  | nil => intro dir log; exact ⟨[], by simp [syncZipLoop]⟩
  | cons i rest ih =>
    intro dir log
    rw [syncZipLoop]
    by_cases hmem : i.name ∈ listing
    · rw [if_pos hmem]; exact ih dir log
    · rw [if_neg hmem]
      cases hf : fetch i.url with
      | none => exact ⟨[], by simp⟩
      | some payload =>
        obtain ⟨w, hw⟩ := ih (dir ++ [(i.name, payload)]) (log ++ [i.url])
        exact ⟨(i.name, payload) :: w, by rw [hw, List.append_assoc]; rfl⟩

/-- C8: if the fetch for one reference fails, the whole call fails at that
point: the result is not-ok, the fetch log is exactly the earlier
references' log followed by the failing URL (no later reference is fetched
or written), and the cache directory still holds the initial files plus
every archive written for the earlier references in the same call. -/
theorem synchronizeUsptoZipFiles_fetch_failure {β : Type} (fetch : Str → Option β)
    (pre post : List UsptoZipFileInfo) (bad : UsptoZipFileInfo)
    (dir0 : List (Str × β))
    (hpre : ∀ i ∈ pre, i.name ∉ dir0.map Prod.fst → (fetch i.url).isSome)
    (hbadName : bad.name ∉ dir0.map Prod.fst)
    (hbad : fetch bad.url = none) :
    synchronizeUsptoZipFiles fetch (pre ++ bad :: post) dir0 =
      ⟨false,
       (syncZipLoop fetch (dir0.map Prod.fst) pre dir0 []).dir,
       (syncZipLoop fetch (dir0.map Prod.fst) pre dir0 []).fetched ++ [bad.url]⟩ ∧
    ∃ w, (syncZipLoop fetch (dir0.map Prod.fst) pre dir0 []).dir = dir0 ++ w := by
  constructor
  · rw [synchronizeUsptoZipFiles,
      syncZipLoop_append fetch (dir0.map Prod.fst) pre (bad :: post) dir0 [] hpre,
      syncZipLoop, if_neg hbadName, hbad]
  · exact syncZipLoop_dir_extend fetch (dir0.map Prod.fst) pre dir0 []

/-- A fetch function failing exactly on the sample bad URL. -/
def sampleFetchBad : Str → Option Nat :=
  fun u => if u = "https://x/b.zip".toList then none else some 1

/-- C8 witness: the theorem applied to a concrete failing middle
reference. -/
theorem synchronizeUsptoZipFiles_fetch_failure_witness :
    synchronizeUsptoZipFiles sampleFetchBad
        ([⟨"a.zip".toList, "https://x/a.zip".toList⟩] ++
          ⟨"b.zip".toList, "https://x/b.zip".toList⟩ ::
          [⟨"c.zip".toList, "https://x/c.zip".toList⟩]) [] =
      ⟨false,
       (syncZipLoop sampleFetchBad (([] : List (Str × Nat)).map Prod.fst)
         [⟨"a.zip".toList, "https://x/a.zip".toList⟩] [] []).dir,
       (syncZipLoop sampleFetchBad (([] : List (Str × Nat)).map Prod.fst)
         [⟨"a.zip".toList, "https://x/a.zip".toList⟩] [] []).fetched ++
         ["https://x/b.zip".toList]⟩ ∧
    ∃ w, (syncZipLoop sampleFetchBad (([] : List (Str × Nat)).map Prod.fst)
        [⟨"a.zip".toList, "https://x/a.zip".toList⟩] [] []).dir = [] ++ w :=
  synchronizeUsptoZipFiles_fetch_failure sampleFetchBad
    [⟨"a.zip".toList, "https://x/a.zip".toList⟩]
    [⟨"c.zip".toList, "https://x/c.zip".toList⟩]
    ⟨"b.zip".toList, "https://x/b.zip".toList⟩ []
    (by decide) (by decide) (by decide)


/-!
Claim C9: the archive extractor.
-/

/-- Extraction keeps every name already present and adds every member
name. -/
lemma extractAllTo_mem (archive : ZipArchive) :
    ∀ outDir : List (Str × Str),
    (∀ n ∈ outDir.map Prod.fst, n ∈ (extractAllTo archive outDir).map Prod.fst) ∧
    (∀ m ∈ archive, m.1 ∈ (extractAllTo archive outDir).map Prod.fst) := by
  induction archive with
  | nil => intro outDir; exact ⟨fun n hn => hn, fun m hm => absurd hm (by simp)⟩
  | cons m rest ih =>
    intro outDir
    have hstep : extractAllTo (m :: rest) outDir =
        extractAllTo rest
          (if m.1 ∈ outDir.map Prod.fst then outDir else outDir ++ [m]) := by
      rw [extractAllTo, List.foldl_cons]
      rfl
    have hkeep : ∀ n ∈ outDir.map Prod.fst,
        n ∈ (if m.1 ∈ outDir.map Prod.fst then outDir else outDir ++ [m]).map
          Prod.fst := by
      intro n hn
      split_ifs with hmem
      · exact hn
      · simp only [List.map_append, List.mem_append]
        exact Or.inl hn
    have hm1 : m.1 ∈ (if m.1 ∈ outDir.map Prod.fst then outDir
        else outDir ++ [m]).map Prod.fst := by
      split_ifs with hmem
      · exact hmem
      · simp
    refine ⟨?_, ?_⟩
    · intro n hn
      rw [hstep]
      exact (ih _).1 n (hkeep n hn)
    · intro x hx
      rw [hstep]
      rcases List.mem_cons.mp hx with rfl | hx'
      · exact (ih _).1 x.1 hm1
      · exact (ih _).2 x hx'

/-- The extraction log of the fold is the full zip listing, whatever the
starting output directory. -/
lemma zipFoldl_log (zipDir : List (Str × ZipArchive)) :
    ∀ acc : List (Str × Str) × List Str,
    (zipDir.foldl extractStep acc).2 = acc.2 ++ zipDir.map Prod.fst := by
  induction zipDir with
  | nil => intro acc; simp
  | cons z rest ih =>
    intro acc
    rw [List.foldl_cons, ih, List.map_cons]
    rw [extractStep]
    rw [List.append_assoc, List.singleton_append]

/-- Names present in the accumulator survive the rest of the fold. -/
lemma zipFoldl_names_mono (zipDir : List (Str × ZipArchive)) :
    ∀ (acc : List (Str × Str) × List Str) (n : Str),
    n ∈ acc.1.map Prod.fst → n ∈ (zipDir.foldl extractStep acc).1.map Prod.fst := by
  induction zipDir with
  | nil => intro acc n hn; exact hn
  | cons z rest ih =>
    intro acc n hn
    rw [List.foldl_cons]
    exact ih _ n ((extractAllTo_mem z.2 acc.1).1 n hn)

/-- Every member of every archive ends up named in the output directory. -/
lemma zipFoldl_member (zipDir : List (Str × ZipArchive)) :
    ∀ (acc : List (Str × Str) × List Str) (z : Str × ZipArchive), z ∈ zipDir →
    ∀ m ∈ z.2, m.1 ∈ (zipDir.foldl extractStep acc).1.map Prod.fst := by
  induction zipDir with
  | nil => intro acc z hz; cases hz
  | cons z0 rest ih =>
    intro acc z hz m hm
    rw [List.foldl_cons]
    rcases List.mem_cons.mp hz with rfl | hz'
    · exact zipFoldl_names_mono rest _ m.1 ((extractAllTo_mem z.2 acc.1).2 m hm)
    · exact ih _ z hz' m hm

/-- C9: `processCachedUsptoZipFiles` extracts every file currently in the
zip directory on every invocation — the extraction log equals the zip
listing and is computed without consulting the output directory — and
afterwards every member of every archive is present in the output
directory. -/
theorem processCachedUsptoZipFiles_extracts_all (zipDir : List (Str × ZipArchive))
    (outDir0 : List (Str × Str)) :
    (processCachedUsptoZipFiles zipDir outDir0).2 = zipDir.map Prod.fst ∧
    ∀ z ∈ zipDir, ∀ m ∈ z.2,
      m.1 ∈ (processCachedUsptoZipFiles zipDir outDir0).1.map Prod.fst := by
  refine ⟨?_, ?_⟩
  · rw [processCachedUsptoZipFiles, zipFoldl_log]
    rfl
  · intro z hz m hm
    rw [processCachedUsptoZipFiles]
    exact zipFoldl_member zipDir (outDir0, []) z hz m hm


/-!
Claims C3 and C10: the record cache writer.
-/

/-- When every file's batch parses, the loop writes one output per raw file
at the derived path and logs a parse of every full path, in order. -/
lemma processXmlLoop_all (parse : Str → ParsedRoot) (xmlDir jsonDir : Str)
    (contents : Str → Str) :
    ∀ listing : List Str,
    (∀ n ∈ listing, (processUsptoXmlFile parse (contents (pathJoin xmlDir n))).isSome) →
    (processXmlLoop parse xmlDir jsonDir contents listing).2 =
      listing.map (fun n => pathJoin xmlDir n) ∧
    ∃ writes, (processXmlLoop parse xmlDir jsonDir contents listing).1 = some writes ∧
      writes.map Prod.fst = listing.map (fun n => outJsonPath xmlDir jsonDir n) := by
  intro listing
  induction listing with
  | nil => intro _; exact ⟨rfl, [], rfl, rfl⟩
  | cons n rest ih =>
    intro hok
    have hn := hok n (List.mem_cons_self _ _)
    cases hp : processUsptoXmlFile parse (contents (pathJoin xmlDir n)) with
    | none => rw [hp] at hn; simp at hn
    | some data =>
      obtain ⟨hlog, writes, hwr, hpaths⟩ :=
        ih (fun j hj => hok j (List.mem_cons_of_mem _ hj))
      rw [processXmlLoop, hp]
      refine ⟨?_, (outJsonPath xmlDir jsonDir n, data) :: writes, ?_, ?_⟩
      · rw [List.map_cons]
        simp only [hlog]
      · simp only [hwr, Option.map_some']
      · rw [List.map_cons, List.map_cons, ← hpaths]

/-- C3 counterexample: with one raw file whose derived output name is
already present in the output directory listing, a run still performs one
parse (of that file's full path) — not zero as the claim states: the code
never consults the output directory. -/
theorem processCachedUsptoXmlData_always_parses_cex :
    (processCachedUsptoXmlData sampleParse "cache".toList "out".toList
        ["x.xml".toList] (fun _ => sampleSeg)
        [outJsonPath "cache".toList "out".toList "x.xml".toList]).2 =
      [pathJoin "cache".toList "x.xml".toList] ∧
    (processCachedUsptoXmlData sampleParse "cache".toList "out".toList
        ["x.xml".toList] (fun _ => sampleSeg)
        [outJsonPath "cache".toList "out".toList "x.xml".toList]).2 ≠ [] := by
  exact ⟨rfl, by decide⟩

/-- C3 (amended): `processCachedUsptoXmlData` invokes the parser for every
raw file on every run, independently of the output directory's contents:
when every batch parses, the parse log is the full path of every raw file,
for every value of the output listing. -/
theorem processCachedUsptoXmlData_parses_all (parse : Str → ParsedRoot)
    (xmlDir jsonDir : Str) (listing : List Str) (contents : Str → Str)
    (outListing : List Str)
    (hok : ∀ n ∈ listing,
      (processUsptoXmlFile parse (contents (pathJoin xmlDir n))).isSome) :
    (processCachedUsptoXmlData parse xmlDir jsonDir listing contents outListing).2 =
      listing.map (fun n => pathJoin xmlDir n) := by
  rw [processCachedUsptoXmlData]
  exact (processXmlLoop_all parse xmlDir jsonDir contents listing hok).1

/-- C3 witness: the amended theorem applied with the single sample file and
a non-empty output listing. -/
theorem processCachedUsptoXmlData_parses_all_witness :
    (processCachedUsptoXmlData sampleParse "cache".toList "out".toList
        ["x.xml".toList] (fun _ => sampleSeg)
        [outJsonPath "cache".toList "out".toList "x.xml".toList]).2 =
      (["x.xml".toList] : List Str).map (fun n => pathJoin "cache".toList n) :=
  processCachedUsptoXmlData_parses_all sampleParse "cache".toList "out".toList
    ["x.xml".toList] (fun _ => sampleSeg)
    [outJsonPath "cache".toList "out".toList "x.xml".toList]
    (by decide)

/-- C10 counterexample: with raw directory `x.d` — a directory path
containing a dot — and raw file `x.xml`, the derived output path *is*
`<outDir>/<basename stem>.json` (`out/x.json`), so the claim's "is not
written as" clause fails in that corner even though its path formula
holds. -/
theorem outJsonPath_dot_dir_cex :
    ('.' ∈ "x.d".toList) ∧
    outJsonPath "x.d".toList "out".toList "x.xml".toList =
      pathJoin "out".toList (splitDotHead "x.xml".toList ++ ".json".toList) ∧
    outJsonPath "x.d".toList "out".toList "x.xml".toList = "out/x.json".toList := by
  exact ⟨by decide, rfl, rfl⟩

/-- C10 (amended): every write of a successful run goes to
`join(jsonDir, truncate-at-first-dot(join(xmlDir, name)) ++ ".json")`, the
truncation applying to the joined full path; this path differs from
`join(jsonDir, stem(name) ++ ".json")` exactly in those cases where the
truncated full path differs from the file's own stem (which holds whenever
`xmlDir` is non-trivial and dot-free, but can coincide, e.g. `xmlDir =
"x.d"` with file `"x.xml"`). -/
theorem processCachedUsptoXmlData_paths (parse : Str → ParsedRoot)
    (xmlDir jsonDir : Str) (listing : List Str) (contents : Str → Str)
    (outListing : List Str) (writes : List (Str × List UsptoPatentSchemaData))
    (hw : (processCachedUsptoXmlData parse xmlDir jsonDir listing contents
      outListing).1 = some writes) :
    writes.map Prod.fst = listing.map (fun n => outJsonPath xmlDir jsonDir n) ∧
    ∀ n : Str, splitDotHead (pathJoin xmlDir n) ≠ splitDotHead n →
      outJsonPath xmlDir jsonDir n ≠
        pathJoin jsonDir (splitDotHead n ++ ".json".toList) := by
  constructor
  · rw [processCachedUsptoXmlData] at hw
    revert writes
    induction listing with
    | nil =>
      intro writes hw
      rw [processXmlLoop] at hw
      obtain rfl := Option.some.inj hw
      rfl
    | cons n rest ih =>
      intro writes hw
      rw [processXmlLoop] at hw
      cases hp : processUsptoXmlFile parse (contents (pathJoin xmlDir n)) with
      | none => rw [hp] at hw; simp at hw
      | some data =>
        simp only [hp] at hw
        cases hr : (processXmlLoop parse xmlDir jsonDir contents rest).1 with
        | none => rw [hr] at hw; simp at hw
        | some rwrites =>
          rw [hr] at hw
          simp only [Option.map_some'] at hw
          obtain rfl := Option.some.inj hw
          rw [List.map_cons, List.map_cons, ih rwrites hr]
  · intro n hne heq
    rw [outJsonPath, pathJoin, pathJoin] at heq
    have h1 := List.append_cancel_left heq
    have h2 := List.cons_injective h1
    exact hne (List.append_cancel_right h2)

/-- C10 witness: the amended theorem applied to a dot-free raw directory,
where the write path keeps the joined directory inside the file name. -/
theorem processCachedUsptoXmlData_paths_witness :
    ([(outJsonPath "cache".toList "out".toList "x.xml".toList,
        [toSchemaData sampleData])].map Prod.fst =
      (["x.xml".toList] : List Str).map
        (fun n => outJsonPath "cache".toList "out".toList n)) ∧
    ∀ n : Str, splitDotHead (pathJoin "cache".toList n) ≠ splitDotHead n →
      outJsonPath "cache".toList "out".toList n ≠
        pathJoin "out".toList (splitDotHead n ++ ".json".toList) :=
  processCachedUsptoXmlData_paths sampleParse "cache".toList "out".toList
    ["x.xml".toList] (fun _ => sampleSeg) []
    [(outJsonPath "cache".toList "out".toList "x.xml".toList,
      [toSchemaData sampleData])]
    (by rfl)


/-!
Claim C2: the ledger-tracked store synchronizer.
-/

/-- C2 (code behavior at the claimed scenario, exhibiting the bug): with an
initially empty ledger and a record directory holding exactly one processed
file of 3 records, a run inserts exactly the three rows — but it leaves the
ledger empty (`synchronizedFileNames` is never appended to and `sync.json`
is never rewritten), so an immediately following second run inserts the
same 3 rows again, for 6 in total, instead of performing zero inserts. -/
theorem synchronizeProcessedDataToMongoDB_no_ledger_append (fname : Str)
    (r1 r2 r3 : UsptoPatentSchemaData) :
    (synchronizeProcessedDataToMongoDB
        ⟨some [], [(fname, [r1, r2, r3])], []⟩).store =
      [mongoRowOf r1, mongoRowOf r2, mongoRowOf r3] ∧
    (synchronizeProcessedDataToMongoDB
        ⟨some [], [(fname, [r1, r2, r3])], []⟩).ledgerFile = some [] ∧
    ¬ fname ∈ ((synchronizeProcessedDataToMongoDB
        ⟨some [], [(fname, [r1, r2, r3])], []⟩).ledgerFile.getD []) ∧
    (synchronizeProcessedDataToMongoDB (synchronizeProcessedDataToMongoDB
        ⟨some [], [(fname, [r1, r2, r3])], []⟩)).store =
      [mongoRowOf r1, mongoRowOf r2, mongoRowOf r3,
       mongoRowOf r1, mongoRowOf r2, mongoRowOf r3] ∧
    (synchronizeProcessedDataToMongoDB (synchronizeProcessedDataToMongoDB
        ⟨some [], [(fname, [r1, r2, r3])], []⟩)).store.length = 6 := by
  refine ⟨?_, rfl, by simp [synchronizeProcessedDataToMongoDB], ?_, ?_⟩ <;>
    simp [synchronizeProcessedDataToMongoDB]

/-- A concrete flattened record. -/
def sampleSchemaRecord : UsptoPatentSchemaData := toSchemaData sampleData

/-- C2 witness: the theorem applied to a concrete file name and records. -/
theorem synchronizeProcessedDataToMongoDB_no_ledger_append_witness :
    (synchronizeProcessedDataToMongoDB (synchronizeProcessedDataToMongoDB
        ⟨some [], [("f.json".toList,
          [sampleSchemaRecord, sampleSchemaRecord, sampleSchemaRecord])],
          []⟩)).store.length = 6 :=
  (synchronizeProcessedDataToMongoDB_no_ledger_append "f.json".toList
    sampleSchemaRecord sampleSchemaRecord sampleSchemaRecord).2.2.2.2

/-- A concrete zip directory with one archive of two members. -/
def sampleZipDir : List (Str × ZipArchive) :=
  [("a.zip".toList, [("m1.xml".toList, "c1".toList),
                     ("m2.xml".toList, "c2".toList)])]

/-- C9 witness: the theorem applied to the concrete zip directory and a
non-empty output directory. -/
theorem processCachedUsptoZipFiles_extracts_all_witness :
    (processCachedUsptoZipFiles sampleZipDir [("m1.xml".toList, "old".toList)]).2 =
      sampleZipDir.map Prod.fst ∧
    ∀ z ∈ sampleZipDir, ∀ m ∈ z.2,
      m.1 ∈ (processCachedUsptoZipFiles sampleZipDir
        [("m1.xml".toList, "old".toList)]).1.map Prod.fst :=
  processCachedUsptoZipFiles_extracts_all sampleZipDir
    [("m1.xml".toList, "old".toList)]
